import Mathlib

/-!
Verification of the avail-core data-availability encoding layer.

This file gives a shallow embedding of the relevant parts of the repository
(`DataLookup`/`CompactDataLookup` from `src/core/src/data_lookup`, the cell
codecs from `src/kate/recovery/src/data.rs`, and the proof-verification entry
points of `src/kate/recovery/src/proof.rs`), together with spec-level models
of the grid-extension and parallel-commitment code whose implementation files
are not part of the tree, and proves or refutes the stated properties.

Machine integers are modelled as `Nat` with explicit bounds: a `u32` value is
a `Nat` taken modulo `2 ^ 32` exactly where the Rust code wraps or checks, a
`u16` cast is `% 2 ^ 16`, and fallible operations return `Except`/`Option`.
-/

set_option maxRecDepth 10000

namespace AvailCore

/-- Shallow embedding of Rust `Range<u32>` (the `DataLookupRange` type of
`src/core/src/data_lookup/v4.rs`).  The field `stop` models the Rust field
`end`, which is a Lean keyword. -/
structure RangeU where
  start : Nat
  stop : Nat
deriving DecidableEq, Repr

/-- The error enum of `src/core/src/data_lookup/v4.rs` (lines 19-29).
`AppId` is a `u32` newtype; it is modelled as a plain `Nat`. -/
inductive Error where
  | DataNotSorted
  | DataEmptyOn (id : Nat)
  | OffsetOverflows
  | EmptyTransactions
deriving DecidableEq, Repr

/-- `DataLookup` (v4.rs lines 38-41): an ordered list of `(AppId, range)`
pairs plus the per-transaction row counts (`Vec<u16>`). -/
structure DataLookup where
  index : List (Nat × RangeU)
  rows_per_tx : List Nat
deriving DecidableEq, Repr

/-- `DataLookup::len` (v4.rs lines 44-46): end of the last range, or 0. -/
def DataLookup.len (d : DataLookup) : Nat :=
  match d.index.getLast? with
  | none => 0
  | some (_, r) => r.stop

/-- `DataLookup::is_empty` (v4.rs lines 48-50). -/
def DataLookup.is_empty (d : DataLookup) : Bool :=
  d.len == 0

/-- `DataLookup.is_error` — "ends in error"-free alias is not needed;
`DataLookup::is_error` (v4.rs lines 52-54): empty length but non-empty index. -/
def DataLookup.isError (d : DataLookup) : Bool :=
  d.is_empty && !d.index.isEmpty

/-- `DataLookup::new_empty` (v4.rs lines 186-191). -/
def DataLookup.new_empty : DataLookup :=
  ⟨[], []⟩

/-- `DataLookup::new_error` (v4.rs lines 194-199): one dummy `AppId(0)`
entry with the empty range. -/
def DataLookup.new_error : DataLookup :=
  ⟨[(0, ⟨0, 0⟩)], []⟩

/-- The loop of `DataLookup::from_id_and_len_iter` (v4.rs lines 137-183),
with the remaining input list first and then the accumulated Rust locals
`offset`, `last_id`, `index`, `rows_per_tx`, `current_rows_per_tx`.

Faithfulness notes:
* `u32::try_from(len)` fails exactly when `len ≥ 2 ^ 32` (`OffsetOverflows`);
* `ensure!(len > 0, DataEmptyOn(id))` is the `len = 0` branch;
* the sort check `id.0 >= prev_id.0` precedes the group switch;
* `offset.checked_add(len)` fails exactly when `offset + len ≥ 2 ^ 32`;
* `len as u16` is `len % 2 ^ 16`;
* `range_start = offset - Σ current` uses `u32` subtraction; it never
  underflows on any reachable state because every stored entry of `current`
  is `len % 2 ^ 16 ≤ len` and `offset` is the sum of the full lengths of the
  current group plus the preceding offset, so `Nat` subtraction agrees;
* in the `last_id = None` arm the code clears `current` (already empty on
  the only reachable such state) and pushes the first length. -/
def fidalGo : List (Nat × Nat) → Nat → Option Nat → List (Nat × RangeU) →
    List Nat → List Nat → Except Error DataLookup
  | [], offset, some lid, index, rpt, cur =>
    .ok ⟨index ++ [(lid, ⟨offset - cur.sum, offset⟩)], rpt ++ cur⟩
  | [], _, none, index, rpt, _ => .ok ⟨index, rpt⟩
  | (id, len) :: rest, offset, some prev, index, rpt, cur =>
    if len ≥ 2 ^ 32 then .error .OffsetOverflows
    else if len = 0 then .error (.DataEmptyOn id)
    else if id < prev then .error .DataNotSorted
    else if id ≠ prev then
      if offset + len ≥ 2 ^ 32 then .error .OffsetOverflows
      else
        fidalGo rest (offset + len) (some id)
          (index ++ [(prev, ⟨offset - cur.sum, offset⟩)]) (rpt ++ cur)
          [len % 2 ^ 16]
    else
      if offset + len ≥ 2 ^ 32 then .error .OffsetOverflows
      else fidalGo rest (offset + len) (some id) index rpt (cur ++ [len % 2 ^ 16])
  | (id, len) :: rest, offset, none, index, rpt, _ =>
    if len ≥ 2 ^ 32 then .error .OffsetOverflows
    else if len = 0 then .error (.DataEmptyOn id)
    else if offset + len ≥ 2 ^ 32 then .error .OffsetOverflows
    else fidalGo rest (offset + len) (some id) index rpt [len % 2 ^ 16]

/-- `DataLookup::from_id_and_len_iter` (v4.rs lines 137-183), on a list of
`(app_id, length)` pairs. -/
def DataLookup.from_id_and_len_iter (l : List (Nat × Nat)) : Except Error DataLookup :=
  fidalGo l 0 none [] [] []

/-- `v4_compact::CompactDataLookup`.  The `size`/`index` fields and the
`is_error`/`new_error`/`from_data_lookup` logic follow
`src/core/src/data_lookup/compact.rs`; the `v4_compact` variant actually used
by v4.rs (its file is not in the tree, only its caller and tests) also carries
the `rows_per_tx` vector that `TryFrom<CompactDataLookup>` reads back.
Modelled from the spec: missing `v4_compact` module; per §4.1 (round-trip law,
compact encoding) and the v4.rs tests (`check_compressed_encode`), the
`rows_per_tx` list is carried through the compact form unchanged, and the
error sentinel has an empty `rows_per_tx`.  An index entry is a
`DataLookupItem` `(app_id, start)`. -/
structure CompactDataLookup where
  size : Nat
  index : List (Nat × Nat)
  rows_per_tx : List Nat
deriving DecidableEq, Repr

/-- `CompactDataLookup::is_error` (compact.rs lines 59-62): the legacy
`size == u32::MAX` sentinel, or `size == 0` with a non-empty index. -/
def CompactDataLookup.isError (c : CompactDataLookup) : Bool :=
  c.size == 2 ^ 32 - 1 || (c.size == 0 && !c.index.isEmpty)

/-- `CompactDataLookup::new_error` (compact.rs lines 65-70). -/
def CompactDataLookup.new_error : CompactDataLookup :=
  ⟨0, [(0, 0)], []⟩

/-- `CompactDataLookup::from_data_lookup` (compact.rs lines 72-85), plus the
spec-modelled `rows_per_tx` pass-through of the missing `v4_compact` file. -/
def CompactDataLookup.from_data_lookup (d : DataLookup) : CompactDataLookup :=
  if d.isError then CompactDataLookup.new_error
  else
    ⟨(match d.index.getLast? with
      | none => 0
      | some (_, r) => r.stop),
      (d.index.filter (fun p => p.1 != 0)).map (fun p => (p.1, p.2.start)),
      d.rows_per_tx⟩

/-- The reconstruction loop of `TryFrom<CompactDataLookup> for DataLookup`
(v4.rs lines 210-228): state `(prev_id, offset)`, one emitted entry per
compact item, and the final `last_range = offset..size` pushed only when
non-empty (`Range::is_empty` for `u32` is `start >= end`). -/
def tryFromGo : List (Nat × Nat) → Nat → Nat → Nat → List (Nat × RangeU)
  | [], prev, offset, size => if offset < size then [(prev, ⟨offset, size⟩)] else []
  | (aid, s) :: rest, prev, offset, size => (prev, ⟨offset, s⟩) :: tryFromGo rest aid s size

/-- `TryFrom<CompactDataLookup> for DataLookup` (v4.rs lines 202-240).
The `Vec::with_capacity(len + 1)` `checked_add` on `usize` cannot fail for a
materialized vector and is not modelled. -/
def DataLookup.try_from (c : CompactDataLookup) : Except Error DataLookup :=
  if c.isError then .ok DataLookup.new_error
  else
    let d : DataLookup := ⟨tryFromGo c.index 0 0 c.size, c.rows_per_tx⟩
    if d.len = c.size then .ok d else .error .DataNotSorted

example :
    DataLookup.from_id_and_len_iter [(0, 15), (1, 20), (2, 150)] =
      .ok ⟨[(0, ⟨0, 15⟩), (1, ⟨15, 35⟩), (2, ⟨35, 185⟩)], [15, 20, 150]⟩ := by
  rfl

example :
    DataLookup.from_id_and_len_iter [(1, 15), (1, 20), (2, 150)] =
      .ok ⟨[(1, ⟨0, 35⟩), (2, ⟨35, 185⟩)], [15, 20, 150]⟩ := by
  rfl

example : DataLookup.from_id_and_len_iter [(1, 10), (0, 2)] = .error .DataNotSorted := by
  rfl

example : DataLookup.from_id_and_len_iter [(0, 2 ^ 64 - 1)] = .error .OffsetOverflows := by
  rfl

example : DataLookup.from_id_and_len_iter [] = .ok ⟨[], []⟩ := by rfl

-- the round-trip defect: a first app id ≠ 0 yields a spurious (0, 0..0) entry
example :
    DataLookup.try_from (CompactDataLookup.from_data_lookup ⟨[(1, ⟨0, 10⟩)], [10]⟩) =
      .ok ⟨[(0, ⟨0, 0⟩), (1, ⟨0, 10⟩)], [10]⟩ := by
  rfl

-- the u16 truncation defect: a length ≥ 2^16 breaks contiguity
example :
    DataLookup.from_id_and_len_iter [(0, 70000)] =
      .ok ⟨[(0, ⟨65536, 70000⟩)], [4464]⟩ := by
  rfl

/-- Well-formedness of an index fragment: starting at `off`, every entry's
range begins where the previous one ended, every range is non-empty, and the
app ids strictly increase starting from `lo`. -/
def IndexWF : Nat → Nat → List (Nat × RangeU) → Prop
  | _, _, [] => True
  | off, lo, (a, r) :: rest =>
    r.start = off ∧ off < r.stop ∧ lo ≤ a ∧ IndexWF r.stop (a + 1) rest

/-- The end of the last range of an index fragment (`d` when empty). -/
def lastEnd : List (Nat × RangeU) → Nat → Nat
  | [], d => d
  | (_, r) :: rest, _ => lastEnd rest r.stop

/-- Contiguity alone: each range starts where the previous one ended,
beginning at `off`. -/
def ContiguousFrom : Nat → List (Nat × RangeU) → Prop
  | _, [] => True
  | off, (_, r) :: rest => r.start = off ∧ ContiguousFrom r.stop rest

theorem indexWF_mono {lo' off lo : Nat} {L : List (Nat × RangeU)}
    (h : IndexWF off lo L) (hle : lo' ≤ lo) : IndexWF off lo' L := by
  cases L with
  | nil => trivial
  | cons p rest =>
    obtain ⟨a, r⟩ := p
    exact ⟨h.1, h.2.1, le_trans hle h.2.2.1, h.2.2.2⟩

theorem indexWF_ids_ge {off lo : Nat} {L : List (Nat × RangeU)}
    (h : IndexWF off lo L) : ∀ p ∈ L, lo ≤ p.1 := by
  induction L generalizing off lo with
  | nil => intro p hp; cases hp
  | cons q rest ih =>
    obtain ⟨a, r⟩ := q
    intro p hp
    rcases List.mem_cons.mp hp with hp | hp
    · subst hp; exact h.2.2.1
    · exact le_trans (Nat.le_succ_of_le h.2.2.1) (ih h.2.2.2 p hp)

theorem indexWF_pairwise {off lo : Nat} {L : List (Nat × RangeU)}
    (h : IndexWF off lo L) : L.Pairwise (fun p q => p.1 < q.1) := by
  induction L generalizing off lo with
  | nil => exact List.Pairwise.nil
  | cons q rest ih =>
    obtain ⟨a, r⟩ := q
    refine List.Pairwise.cons ?_ (ih h.2.2.2)
    intro p hp
    exact Nat.lt_of_succ_le (indexWF_ids_ge h.2.2.2 p hp)

theorem indexWF_contiguous {off lo : Nat} {L : List (Nat × RangeU)}
    (h : IndexWF off lo L) : ContiguousFrom off L := by
  induction L generalizing off lo with
  | nil => trivial
  | cons q rest ih =>
    obtain ⟨a, r⟩ := q
    exact ⟨h.1, ih h.2.2.2⟩

theorem indexWF_nonempty_ranges {off lo : Nat} {L : List (Nat × RangeU)}
    (h : IndexWF off lo L) : ∀ p ∈ L, p.2.start < p.2.stop := by
  induction L generalizing off lo with
  | nil => intro p hp; cases hp
  | cons q rest ih =>
    obtain ⟨a, r⟩ := q
    intro p hp
    rcases List.mem_cons.mp hp with hp | hp
    · subst hp
      show r.start < r.stop
      rw [h.1]
      exact h.2.1
    · exact ih h.2.2.2 p hp

theorem len_eq_lastEnd (rpt : List Nat) (x : Nat) :
    ∀ (L : List (Nat × RangeU)), L ≠ [] →
      DataLookup.len ⟨L, rpt⟩ = lastEnd L x := by
  intro L
  induction L generalizing x with
  | nil => intro h; exact absurd rfl h
  | cons q rest ih =>
    obtain ⟨a, r⟩ := q
    intro _
    cases rest with
    | nil => rfl
    | cons q' rest' =>
      obtain ⟨b, s⟩ := q'
      have h1 : DataLookup.len ⟨(a, r) :: (b, s) :: rest', rpt⟩ =
          DataLookup.len ⟨(b, s) :: rest', rpt⟩ := by
        simp [DataLookup.len, List.getLast?]
      rw [h1, ih r.stop (by simp)]
      rfl

theorem fidalGo_nil_some (offset lid : Nat) (index : List (Nat × RangeU))
    (rpt cur : List Nat) :
    fidalGo [] offset (some lid) index rpt cur =
      .ok ⟨index ++ [(lid, ⟨offset - cur.sum, offset⟩)], rpt ++ cur⟩ := rfl

theorem fidalGo_cons_some (id len : Nat) (rest : List (Nat × Nat))
    (offset prev : Nat) (index : List (Nat × RangeU)) (rpt cur : List Nat) :
    fidalGo ((id, len) :: rest) offset (some prev) index rpt cur =
      (if len ≥ 2 ^ 32 then .error .OffsetOverflows
       else if len = 0 then .error (.DataEmptyOn id)
       else if id < prev then .error .DataNotSorted
       else if id ≠ prev then
         if offset + len ≥ 2 ^ 32 then .error .OffsetOverflows
         else
           fidalGo rest (offset + len) (some id)
             (index ++ [(prev, ⟨offset - cur.sum, offset⟩)]) (rpt ++ cur)
             [len % 2 ^ 16]
       else
         if offset + len ≥ 2 ^ 32 then .error .OffsetOverflows
         else fidalGo rest (offset + len) (some id) index rpt
           (cur ++ [len % 2 ^ 16])) := rfl

theorem fidalGo_cons_none (id len : Nat) (rest : List (Nat × Nat))
    (offset : Nat) (index : List (Nat × RangeU)) (rpt cur : List Nat) :
    fidalGo ((id, len) :: rest) offset none index rpt cur =
      (if len ≥ 2 ^ 32 then .error .OffsetOverflows
       else if len = 0 then .error (.DataEmptyOn id)
       else if offset + len ≥ 2 ^ 32 then .error .OffsetOverflows
       else fidalGo rest (offset + len) (some id) index rpt [len % 2 ^ 16]) := rfl

/-- The central fact about the `from_id_and_len_iter` loop: whenever it
succeeds, the produced index extends the accumulator with a well-formed,
non-empty tail whose first group carries the current app id, whose ranges
cover `offset - Σ current` up to `offset + Σ remaining lengths`, and the
produced `rows_per_tx` records every remaining length verbatim (assuming all
lengths fit in a `u16`, so that the `as u16` cast is lossless). -/
theorem fidalGo_ok (l : List (Nat × Nat)) :
    ∀ offset lid index rpt cur d,
    (∀ p ∈ l, p.2 < 2 ^ 16) →
    cur ≠ [] → (∀ x ∈ cur, 0 < x) → cur.sum ≤ offset →
    fidalGo l offset (some lid) index rpt cur = .ok d →
    ∃ r0 tl,
      d.index = index ++ (lid, r0) :: tl ∧
      d.rows_per_tx = rpt ++ cur ++ l.map (fun p => p.2) ∧
      IndexWF (offset - cur.sum) lid ((lid, r0) :: tl) ∧
      lastEnd ((lid, r0) :: tl) (offset - cur.sum) =
        offset + (l.map (fun p => p.2)).sum := by
  induction l with
  | nil =>
    intro offset lid index rpt cur d _ hne hpos hle hok
    have hsum : 0 < cur.sum := List.sum_pos cur hpos hne
    rw [fidalGo_nil_some] at hok
    cases hok
    refine ⟨⟨offset - cur.sum, offset⟩, [], by simp, by simp, ?_, ?_⟩
    · exact ⟨rfl, Nat.sub_lt (Nat.lt_of_lt_of_le hsum hle) hsum, le_refl _, trivial⟩
    · simp [lastEnd]
  | cons p rest ih =>
    obtain ⟨id, len⟩ := p
    intro offset lid index rpt cur d h16 hne hpos hle hok
    have hlen16 : len < 2 ^ 16 := h16 (id, len) (by simp)
    have hmod : len % 2 ^ 16 = len := Nat.mod_eq_of_lt hlen16
    have hsum : 0 < cur.sum := List.sum_pos cur hpos hne
    rw [fidalGo_cons_some] at hok
    by_cases h1 : len ≥ 2 ^ 32
    · rw [if_pos h1] at hok; exact absurd hok (by simp)
    rw [if_neg h1] at hok
    by_cases h2 : len = 0
    · rw [if_pos h2] at hok; exact absurd hok (by simp)
    rw [if_neg h2] at hok
    by_cases h3 : id < lid
    · rw [if_pos h3] at hok; exact absurd hok (by simp)
    rw [if_neg h3] at hok
    by_cases h4 : id = lid
    · -- same app id: the group keeps growing
      rw [if_neg (not_not_intro h4)] at hok
      by_cases h5 : offset + len ≥ 2 ^ 32
      · rw [if_pos h5] at hok; exact absurd hok (by simp)
      rw [if_neg h5, hmod] at hok
      obtain ⟨r0, tl, hidx, hrows, hwf, hend⟩ :=
        ih (offset + len) id index rpt (cur ++ [len]) d
          (fun p hp => h16 p (List.mem_cons_of_mem _ hp))
          (by simp)
          (by
            intro x hx
            rcases List.mem_append.mp hx with hx | hx
            · exact hpos x hx
            · simp at hx; omega)
          (by simp; omega) hok
      have harith : offset + len - (cur ++ [len]).sum = offset - cur.sum := by
        simp; omega
      rw [harith] at hwf hend
      subst h4
      refine ⟨r0, tl, hidx, ?_, hwf, ?_⟩
      · rw [hrows]; simp
      · simp only [List.map_cons, List.sum_cons]
        omega
    · -- new app id: lid < id, flush the previous group
      rw [if_pos h4] at hok
      have hlid : lid < id := by omega
      by_cases h5 : offset + len ≥ 2 ^ 32
      · rw [if_pos h5] at hok; exact absurd hok (by simp)
      rw [if_neg h5, hmod] at hok
      obtain ⟨r0, tl, hidx, hrows, hwf, hend⟩ :=
        ih (offset + len) id
          (index ++ [(lid, ⟨offset - cur.sum, offset⟩)]) (rpt ++ cur) [len] d
          (fun p hp => h16 p (List.mem_cons_of_mem _ hp))
          (by simp) (by intro x hx; simp at hx; omega)
          (by simp) hok
      have harith : offset + len - (List.sum [len]) = offset := by simp
      rw [harith] at hwf hend
      refine ⟨⟨offset - cur.sum, offset⟩, (id, r0) :: tl, ?_, ?_, ?_, ?_⟩
      · rw [hidx]; simp
      · rw [hrows]; simp
      · exact ⟨rfl, Nat.sub_lt (Nat.lt_of_lt_of_le hsum hle) hsum, le_refl _,
          indexWF_mono hwf (Nat.succ_le_of_lt hlid)⟩
      · simp only [lastEnd, List.map_cons, List.sum_cons]
        simp only [lastEnd] at hend
        omega

/-- Success-characterization of `DataLookup::from_id_and_len_iter` for inputs
whose lengths all fit in a `u16`: the produced index is well formed
(contiguous from 0, non-empty ranges, strictly increasing ids), the first
index entry carries the first input id, `rows_per_tx` lists the input
lengths, and `len()` is their sum. -/
theorem from_id_and_len_iter_ok (l : List (Nat × Nat)) (d : DataLookup)
    (h16 : ∀ p ∈ l, p.2 < 2 ^ 16)
    (hok : DataLookup.from_id_and_len_iter l = .ok d) :
    d.rows_per_tx = l.map (fun p => p.2) ∧
    IndexWF 0 0 d.index ∧
    d.len = (l.map (fun p => p.2)).sum ∧
    (l = [] → d.index = []) ∧
    (∀ a len rest, l = (a, len) :: rest → ∃ r tl, d.index = (a, r) :: tl) := by
  cases l with
  | nil =>
    simp only [DataLookup.from_id_and_len_iter, fidalGo] at hok
    cases hok
    exact ⟨rfl, trivial, rfl, fun _ => rfl, fun a len rest h => by cases h⟩
  | cons p rest =>
    obtain ⟨id, len⟩ := p
    rw [DataLookup.from_id_and_len_iter, fidalGo_cons_none] at hok
    by_cases h1 : len ≥ 2 ^ 32
    · rw [if_pos h1] at hok; exact absurd hok (by simp)
    rw [if_neg h1] at hok
    by_cases h2 : len = 0
    · rw [if_pos h2] at hok; exact absurd hok (by simp)
    rw [if_neg h2] at hok
    by_cases h3 : (0 : Nat) + len ≥ 2 ^ 32
    · rw [if_pos h3] at hok; exact absurd hok (by simp)
    rw [if_neg h3] at hok
    have hlen16 : len < 2 ^ 16 := h16 (id, len) (by simp)
    have hmod : len % 2 ^ 16 = len := Nat.mod_eq_of_lt hlen16
    rw [hmod] at hok
    obtain ⟨r0, tl, hidx, hrows, hwf, hend⟩ :=
      fidalGo_ok rest (0 + len) id [] [] [len] d
        (fun p hp => h16 p (List.mem_cons_of_mem _ hp))
        (by simp) (by intro x hx; simp at hx; omega) (by simp) hok
    have harith : 0 + len - (List.sum [len]) = 0 := by simp
    rw [harith] at hwf hend
    simp only [List.nil_append] at hidx
    refine ⟨?_, ?_, ?_, ?_, ?_⟩
    · rw [hrows]; simp
    · rw [hidx]; exact indexWF_mono hwf (Nat.zero_le _)
    · rw [len_eq_lastEnd d.rows_per_tx 0 d.index (by rw [hidx]; simp), hidx,
        hend]
      simp
    · intro h; cases h
    · intro a len' rest' hl
      injection hl with h1' h2'
      injection h1' with ha hlen
      exact ⟨r0, tl, by rw [hidx, ha]⟩

theorem indexWF_le_lastEnd {off lo : Nat} {L : List (Nat × RangeU)}
    (h : IndexWF off lo L) : off ≤ lastEnd L off := by
  induction L generalizing off lo with
  | nil => exact le_refl _
  | cons q rest ih =>
    obtain ⟨a, r⟩ := q
    calc off ≤ r.stop := Nat.le_of_lt h.2.1
    _ ≤ lastEnd rest r.stop := ih h.2.2.2

/-- The `TryFrom` reconstruction loop, applied to the compact image of a
well-formed index fragment, rebuilds the fragment (together with the pending
entry held in the loop state). -/
theorem tryFromGo_wf :
    ∀ (rest : List (Nat × RangeU)) (lo prev ps pstop : Nat),
    IndexWF pstop lo rest → ps < pstop →
    tryFromGo (rest.map (fun p => (p.1, p.2.start))) prev ps
        (lastEnd rest pstop) =
      (prev, ⟨ps, pstop⟩) :: rest := by
  intro rest
  induction rest with
  | nil =>
    intro lo prev ps pstop _ hlt
    simp [tryFromGo, lastEnd, if_pos hlt]
  | cons q rest' ih =>
    obtain ⟨a, r⟩ := q
    intro lo prev ps pstop hwf hlt
    obtain ⟨hstart, hne, _, hwf'⟩ := hwf
    subst hstart
    have hr : lastEnd ((a, r) :: rest') r.start = lastEnd rest' r.stop := rfl
    rw [hr]
    show (prev, ⟨ps, r.start⟩) ::
        tryFromGo (rest'.map (fun p => (p.1, p.2.start))) a r.start
          (lastEnd rest' r.stop) = _
    rw [ih (a + 1) a r.start r.stop hwf' hne]

/-- Round-trip through the compact form is the identity for any `DataLookup`
whose index is well formed, starts (if non-empty) at app id 0, and whose
total length is not the legacy `u32::MAX` sentinel. -/
theorem compact_roundtrip_of_wf (d : DataLookup)
    (hwf : IndexWF 0 0 d.index)
    (hfirst : d.index = [] ∨ ∃ r tl, d.index = (0, r) :: tl)
    (hmax : d.len ≠ 2 ^ 32 - 1) :
    DataLookup.try_from (CompactDataLookup.from_data_lookup d) = .ok d := by
  obtain ⟨idx, rows⟩ := d
  rcases hfirst with hnil | ⟨r0, tl, hcons⟩
  · simp only at hnil
    subst hnil
    rfl
  · simp only at hcons
    subst hcons
    obtain ⟨hstart, hpos, _, hwf'⟩ := hwf
    have hlen : DataLookup.len ⟨(0, r0) :: tl, rows⟩ = lastEnd tl r0.stop :=
      len_eq_lastEnd rows 0 _ (by simp)
    have hlenpos : 0 < DataLookup.len ⟨(0, r0) :: tl, rows⟩ := by
      rw [hlen]
      exact Nat.lt_of_lt_of_le hpos (indexWF_le_lastEnd hwf')
    have herr : DataLookup.isError ⟨(0, r0) :: tl, rows⟩ = false := by
      simp [DataLookup.isError, DataLookup.is_empty]
      omega
    have hfilter :
        (((0, r0) :: tl).filter (fun p => p.1 != 0)) = tl := by
      rw [List.filter_cons]
      simp only [bne_self_eq_false, Bool.false_eq_true, if_false]
      refine List.filter_eq_self.mpr ?_
      intro p hp
      have := indexWF_ids_ge hwf' p hp
      simpa [bne_iff_ne] using by omega
    have hsize :
        CompactDataLookup.from_data_lookup ⟨(0, r0) :: tl, rows⟩ =
          ⟨lastEnd tl r0.stop, tl.map (fun p => (p.1, p.2.start)), rows⟩ := by
      rw [CompactDataLookup.from_data_lookup, herr]
      simp only [Bool.false_eq_true, if_false]
      refine congrArg₂ (fun a b => CompactDataLookup.mk a b rows) ?_ ?_
      · show DataLookup.len ⟨(0, r0) :: tl, rows⟩ = lastEnd tl r0.stop
        exact hlen
      · rw [hfilter]
    rw [hsize, DataLookup.try_from]
    have herr2 :
        CompactDataLookup.isError
          ⟨lastEnd tl r0.stop, tl.map (fun p => (p.1, p.2.start)), rows⟩ =
          false := by
      simp only [CompactDataLookup.isError]
      rw [hlen] at hmax hlenpos
      simp [hmax]
      omega
    rw [herr2]
    simp only [Bool.false_eq_true, if_false]
    have hgo :
        tryFromGo (tl.map (fun p => (p.1, p.2.start))) 0 0 (lastEnd tl r0.stop) =
          (0, ⟨0, r0.stop⟩) :: tl :=
      tryFromGo_wf tl 1 0 0 r0.stop hwf' hpos
    have hr0 : (⟨0, r0.stop⟩ : RangeU) = r0 := by
      cases r0
      simp only at hstart
      rw [hstart]
    rw [hgo, hr0, if_pos]
    exact hlen

/-- C1 (amended): for a well-formed `(app_id, length)` sequence whose first
app id is 0 (or which is empty), whose lengths all fit in a `u16`, and whose
total length is below the `u32::MAX` sentinel, the round trip
`from_id_and_len_iter` → `CompactDataLookup::from_data_lookup` →
`DataLookup::try_from` reproduces the very `DataLookup` that was built
(index ranges and `rows_per_tx` alike). -/
theorem from_iter_compact_roundtrip (l : List (Nat × Nat)) (d : DataLookup)
    (hgood : ∀ p ∈ l, 0 < p.2 ∧ p.2 < 2 ^ 16)
    (hfirst : l = [] ∨ ∃ len rest, l = (0, len) :: rest)
    (hsum : (l.map (fun p => p.2)).sum < 2 ^ 32 - 1)
    (hok : DataLookup.from_id_and_len_iter l = .ok d) :
    DataLookup.try_from (CompactDataLookup.from_data_lookup d) = .ok d := by
  obtain ⟨_, hwf, hlen, hnil, hcons⟩ :=
    from_id_and_len_iter_ok l d (fun p hp => (hgood p hp).2) hok
  refine compact_roundtrip_of_wf d hwf ?_ (by omega)
  rcases hfirst with h | ⟨len, rest, h⟩
  · exact Or.inl (hnil h)
  · exact Or.inr (hcons 0 len rest h)

theorem from_iter_compact_roundtrip_witness :
    DataLookup.try_from
        (CompactDataLookup.from_data_lookup
          ⟨[(0, ⟨0, 15⟩), (1, ⟨15, 35⟩)], [15, 20]⟩) =
      .ok ⟨[(0, ⟨0, 15⟩), (1, ⟨15, 35⟩)], [15, 20]⟩ :=
  from_iter_compact_roundtrip [(0, 15), (1, 20)] _
    (by decide) (Or.inr ⟨15, [(1, 20)], rfl⟩) (by decide) rfl

/-- C1 counterexample: the claim as stated is false.  The input `[(1, 70000)]`
has non-decreasing ids, a positive length, and no `u32` overflow, yet the
round trip does not reproduce the built lookup: the rebuilt index gains a
spurious `(AppId 0, 0..65536)` entry (two independent defects: a first app id
that is not 0, and the lossy `len as u16` cast). -/
theorem from_iter_compact_roundtrip_cex :
    DataLookup.from_id_and_len_iter [(1, 70000)] =
      .ok ⟨[(1, ⟨65536, 70000⟩)], [4464]⟩ ∧
    DataLookup.try_from
        (CompactDataLookup.from_data_lookup ⟨[(1, ⟨65536, 70000⟩)], [4464]⟩) =
      .ok ⟨[(0, ⟨0, 65536⟩), (1, ⟨65536, 70000⟩)], [4464]⟩ ∧
    (⟨[(0, ⟨0, 65536⟩), (1, ⟨65536, 70000⟩)], [4464]⟩ : DataLookup) ≠
      ⟨[(1, ⟨65536, 70000⟩)], [4464]⟩ :=
  ⟨rfl, rfl, by decide⟩

/-- C4 (amended): every `DataLookup` successfully returned by
`from_id_and_len_iter` on an input whose lengths all fit in a `u16` satisfies
the structural invariant: ranges contiguous starting at 0, every range
non-empty, app ids strictly increasing, and `len()` equal to the sum of the
input lengths. -/
theorem from_id_and_len_iter_invariant (l : List (Nat × Nat)) (d : DataLookup)
    (h16 : ∀ p ∈ l, p.2 < 2 ^ 16)
    (hok : DataLookup.from_id_and_len_iter l = .ok d) :
    ContiguousFrom 0 d.index ∧
    (∀ p ∈ d.index, p.2.start < p.2.stop) ∧
    d.index.Pairwise (fun p q => p.1 < q.1) ∧
    d.len = (l.map (fun p => p.2)).sum := by
  obtain ⟨_, hwf, hlen, _, _⟩ := from_id_and_len_iter_ok l d h16 hok
  exact ⟨indexWF_contiguous hwf, indexWF_nonempty_ranges hwf,
    indexWF_pairwise hwf, hlen⟩

theorem from_id_and_len_iter_invariant_witness :
    ContiguousFrom 0 [(0, ⟨0, 15⟩), (1, ⟨15, 35⟩), (2, ⟨35, 185⟩)] ∧
    (∀ p ∈ [((0 : Nat), (⟨0, 15⟩ : RangeU)), (1, ⟨15, 35⟩), (2, ⟨35, 185⟩)],
      p.2.start < p.2.stop) ∧
    List.Pairwise (fun p q => p.1 < q.1)
      [((0 : Nat), (⟨0, 15⟩ : RangeU)), (1, ⟨15, 35⟩), (2, ⟨35, 185⟩)] ∧
    DataLookup.len ⟨[(0, ⟨0, 15⟩), (1, ⟨15, 35⟩), (2, ⟨35, 185⟩)],
        [15, 20, 150]⟩ =
      (List.map (fun p => p.2) [((0 : Nat), (15 : Nat)), (1, 20), (2, 150)]).sum :=
  from_id_and_len_iter_invariant [(0, 15), (1, 20), (2, 150)]
    ⟨[(0, ⟨0, 15⟩), (1, ⟨15, 35⟩), (2, ⟨35, 185⟩)], [15, 20, 150]⟩
    (by decide) rfl

/-- C4 counterexample: the claim as stated is false.  `[(0, 70000)]` is
accepted, but the single produced range is `65536..70000`: it does not start
at 0, because the `len as u16` cast truncates 70000 to 4464 before the
`range_start` subtraction. -/
theorem from_id_and_len_iter_invariant_cex :
    DataLookup.from_id_and_len_iter [(0, 70000)] =
      .ok ⟨[(0, ⟨65536, 70000⟩)], [4464]⟩ ∧
    ¬ ContiguousFrom 0 [((0 : Nat), (⟨65536, 70000⟩ : RangeU))] :=
  ⟨rfl, fun h => absurd h.1 (by decide)⟩

/-- The app ids of `l` are non-decreasing, starting no lower than `lo`. -/
def sortedFromB : Nat → List (Nat × Nat) → Bool
  | _, [] => true
  | lo, (a, _) :: rest => decide (lo ≤ a) && sortedFromB a rest

/-- The app ids of `l` are non-decreasing. -/
def sortedIdsB : List (Nat × Nat) → Bool
  | [] => true
  | (a, _) :: rest => sortedFromB a rest

theorem fidalGo_not_sorted :
    ∀ (l : List (Nat × Nat)) offset lid index rpt cur,
    (∀ p ∈ l, 0 < p.2 ∧ p.2 < 2 ^ 32) →
    offset + (l.map (fun p => p.2)).sum < 2 ^ 32 →
    sortedFromB lid l = false →
    fidalGo l offset (some lid) index rpt cur = .error .DataNotSorted := by
  intro l
  induction l with
  | nil => intro offset lid index rpt cur _ _ hsort; cases hsort
  | cons p rest ih =>
    obtain ⟨id, len⟩ := p
    intro offset lid index rpt cur hgood hov hsort
    obtain ⟨hpos, hbound⟩ := hgood (id, len) (by simp)
    rw [fidalGo_cons_some, if_neg (by omega), if_neg (by omega)]
    by_cases h3 : id < lid
    · rw [if_pos h3]
    · rw [if_neg h3]
      have hle : lid ≤ id := Nat.le_of_not_lt h3
      have hsort' : sortedFromB id rest = false := by
        simp only [sortedFromB, Bool.and_eq_false_iff, decide_eq_false_iff_not] at hsort
        rcases hsort with h | h
        · exact absurd hle h
        · exact h
      have hsum : offset + len + (rest.map (fun p => p.2)).sum < 2 ^ 32 := by
        simp only [List.map_cons, List.sum_cons] at hov
        omega
      by_cases h4 : id = lid
      · rw [if_neg (not_not_intro h4), if_neg (by omega)]
        exact ih (offset + len) id index rpt (cur ++ [len % 2 ^ 16])
          (fun p hp => hgood p (List.mem_cons_of_mem _ hp)) hsum hsort'
      · rw [if_pos h4, if_neg (by omega)]
        exact ih (offset + len) id
          (index ++ [(lid, ⟨offset - cur.sum, offset⟩)]) (rpt ++ cur)
          [len % 2 ^ 16]
          (fun p hp => hgood p (List.mem_cons_of_mem _ hp)) hsum hsort'

theorem fidalGo_empty_len :
    ∀ (pre : List (Nat × Nat)) (a : Nat) (post : List (Nat × Nat))
      offset lid index rpt cur,
    (∀ p ∈ pre, 0 < p.2 ∧ p.2 < 2 ^ 32) →
    offset + (pre.map (fun p => p.2)).sum < 2 ^ 32 →
    sortedFromB lid pre = true →
    fidalGo (pre ++ (a, 0) :: post) offset (some lid) index rpt cur =
      .error (.DataEmptyOn a) := by
  intro pre
  induction pre with
  | nil =>
    intro a post offset lid index rpt cur _ _ _
    rw [List.nil_append, fidalGo_cons_some, if_neg (by omega), if_pos rfl]
  | cons p pre' ih =>
    obtain ⟨id, len⟩ := p
    intro a post offset lid index rpt cur hgood hov hsort
    obtain ⟨hpos, hbound⟩ := hgood (id, len) (by simp)
    simp only [sortedFromB, Bool.and_eq_true, decide_eq_true_eq] at hsort
    obtain ⟨hle, hsort'⟩ := hsort
    have hsum : offset + len + (pre'.map (fun p => p.2)).sum < 2 ^ 32 := by
      simp only [List.map_cons, List.sum_cons] at hov
      omega
    rw [List.cons_append, fidalGo_cons_some, if_neg (by omega),
      if_neg (by omega), if_neg (by omega)]
    by_cases h4 : id = lid
    · rw [if_neg (not_not_intro h4), if_neg (by omega)]
      exact ih a post (offset + len) id index rpt (cur ++ [len % 2 ^ 16])
        (fun p hp => hgood p (List.mem_cons_of_mem _ hp)) hsum hsort'
    · rw [if_pos h4, if_neg (by omega)]
      exact ih a post (offset + len) id
        (index ++ [(lid, ⟨offset - cur.sum, offset⟩)]) (rpt ++ cur)
        [len % 2 ^ 16]
        (fun p hp => hgood p (List.mem_cons_of_mem _ hp)) hsum hsort'

theorem fidalGo_overflows :
    ∀ (l : List (Nat × Nat)) offset lid index rpt cur,
    sortedFromB lid l = true →
    (∀ p ∈ l, 0 < p.2) →
    offset < 2 ^ 32 →
    ((∃ p ∈ l, 2 ^ 32 ≤ p.2) ∨ 2 ^ 32 ≤ offset + (l.map (fun p => p.2)).sum) →
    fidalGo l offset (some lid) index rpt cur = .error .OffsetOverflows := by
  intro l
  induction l with
  | nil =>
    intro offset lid index rpt cur _ _ hoff hbad
    rcases hbad with ⟨p, hp, _⟩ | hbad
    · cases hp
    · simp only [List.map_nil, List.sum_nil, Nat.add_zero] at hbad
      omega
  | cons p rest ih =>
    obtain ⟨id, len⟩ := p
    intro offset lid index rpt cur hsort hpos hoff hbad
    simp only [sortedFromB, Bool.and_eq_true, decide_eq_true_eq] at hsort
    obtain ⟨hle, hsort'⟩ := hsort
    have hlenpos : 0 < len := hpos (id, len) (by simp)
    rw [fidalGo_cons_some]
    by_cases h1 : len ≥ 2 ^ 32
    · rw [if_pos h1]
    rw [if_neg h1, if_neg (by omega), if_neg (by omega)]
    have hbad' : (∃ p ∈ rest, 2 ^ 32 ≤ p.2) ∨
        2 ^ 32 ≤ offset + len + (rest.map (fun p => p.2)).sum := by
      rcases hbad with ⟨p, hp, hge⟩ | hb
      · rcases List.mem_cons.mp hp with hp | hp
        · exact absurd (hp ▸ hge) (by simpa using h1)
        · exact Or.inl ⟨p, hp, hge⟩
      · simp only [List.map_cons, List.sum_cons] at hb
        exact Or.inr (by omega)
    by_cases h5 : offset + len ≥ 2 ^ 32
    · by_cases h4 : id = lid
      · rw [if_neg (not_not_intro h4), if_pos h5]
      · rw [if_pos h4, if_pos h5]
    · have hrec := fun idx' rpt' cur' =>
        ih (offset + len) id idx' rpt' cur' hsort'
          (fun p hp => hpos p (List.mem_cons_of_mem _ hp)) (by omega) hbad'
      by_cases h4 : id = lid
      · rw [if_neg (not_not_intro h4), if_neg h5]
        exact hrec index rpt (cur ++ [len % 2 ^ 16])
      · rw [if_pos h4, if_neg h5]
        exact hrec (index ++ [(lid, ⟨offset - cur.sum, offset⟩)]) (rpt ++ cur)
          [len % 2 ^ 16]

/-- C5 (amended): the error cases of `from_id_and_len_iter`, with the
priority the loop actually applies at each element — length fits in `u32`,
then length positive, then ordering, then cumulative overflow.  Under the
respective "no earlier violation" side conditions: out-of-order ids give
`DataNotSorted`; a zero length gives `DataEmptyOn` of that element's id; a
length not fitting in `u32` (such as `usize::MAX`) or a cumulative `u32`
overflow gives `OffsetOverflows`; the empty input builds the empty lookup. -/
theorem from_id_and_len_iter_error_cases :
    (∀ l : List (Nat × Nat),
      (∀ p ∈ l, 0 < p.2 ∧ p.2 < 2 ^ 32) →
      (l.map (fun p => p.2)).sum < 2 ^ 32 →
      sortedIdsB l = false →
      DataLookup.from_id_and_len_iter l = .error .DataNotSorted) ∧
    (∀ (pre : List (Nat × Nat)) (a : Nat) (post : List (Nat × Nat)),
      (∀ p ∈ pre, 0 < p.2 ∧ p.2 < 2 ^ 32) →
      (pre.map (fun p => p.2)).sum < 2 ^ 32 →
      sortedIdsB pre = true →
      DataLookup.from_id_and_len_iter (pre ++ (a, 0) :: post) =
        .error (.DataEmptyOn a)) ∧
    (∀ l : List (Nat × Nat),
      sortedIdsB l = true →
      (∀ p ∈ l, 0 < p.2) →
      ((∃ p ∈ l, 2 ^ 32 ≤ p.2) ∨ 2 ^ 32 ≤ (l.map (fun p => p.2)).sum) →
      DataLookup.from_id_and_len_iter l = .error .OffsetOverflows) ∧
    DataLookup.from_id_and_len_iter [] = .ok ⟨[], []⟩ := by
  refine ⟨?_, ?_, ?_, rfl⟩
  · intro l hgood hov hsort
    cases l with
    | nil => cases hsort
    | cons p rest =>
      obtain ⟨id, len⟩ := p
      obtain ⟨hpos, hbound⟩ := hgood (id, len) (by simp)
      rw [DataLookup.from_id_and_len_iter, fidalGo_cons_none,
        if_neg (by omega), if_neg (by omega), if_neg (by
          simp only [List.map_cons, List.sum_cons] at hov
          omega)]
      exact fidalGo_not_sorted rest (0 + len) id [] [] [len % 2 ^ 16]
        (fun p hp => hgood p (List.mem_cons_of_mem _ hp))
        (by simp only [List.map_cons, List.sum_cons] at hov; omega) hsort
  · intro pre a post hgood hov hsort
    cases pre with
    | nil =>
      rw [List.nil_append, DataLookup.from_id_and_len_iter, fidalGo_cons_none,
        if_neg (by omega), if_pos rfl]
    | cons p pre' =>
      obtain ⟨id, len⟩ := p
      obtain ⟨hpos, hbound⟩ := hgood (id, len) (by simp)
      rw [List.cons_append, DataLookup.from_id_and_len_iter, fidalGo_cons_none,
        if_neg (by omega), if_neg (by omega), if_neg (by
          simp only [List.map_cons, List.sum_cons] at hov
          omega)]
      exact fidalGo_empty_len pre' a post (0 + len) id [] [] [len % 2 ^ 16]
        (fun p hp => hgood p (List.mem_cons_of_mem _ hp))
        (by simp only [List.map_cons, List.sum_cons] at hov; omega) hsort
  · intro l hsort hpos hbad
    cases l with
    | nil =>
      rcases hbad with ⟨p, hp, _⟩ | hbad
      · cases hp
      · simp at hbad
    | cons p rest =>
      obtain ⟨id, len⟩ := p
      have hlenpos : 0 < len := hpos (id, len) (by simp)
      rw [DataLookup.from_id_and_len_iter, fidalGo_cons_none]
      by_cases h1 : len ≥ 2 ^ 32
      · rw [if_pos h1]
      rw [if_neg h1, if_neg (by omega)]
      have hbad' : (∃ p ∈ rest, 2 ^ 32 ≤ p.2) ∨
          2 ^ 32 ≤ 0 + len + (rest.map (fun p => p.2)).sum := by
        rcases hbad with ⟨p, hp, hge⟩ | hb
        · rcases List.mem_cons.mp hp with hp | hp
          · exact absurd (hp ▸ hge) (by simpa using h1)
          · exact Or.inl ⟨p, hp, hge⟩
        · simp only [List.map_cons, List.sum_cons] at hb
          exact Or.inr (by omega)
      by_cases h5 : (0 : Nat) + len ≥ 2 ^ 32
      · rw [if_pos h5]
      · rw [if_neg h5]
        exact fidalGo_overflows rest (0 + len) id [] [] [len % 2 ^ 16] hsort
          (fun p hp => hpos p (List.mem_cons_of_mem _ hp)) (by omega) hbad'

theorem from_id_and_len_iter_error_cases_witness :
    DataLookup.from_id_and_len_iter [(1, 10), (0, 2)] =
      .error .DataNotSorted ∧
    DataLookup.from_id_and_len_iter [(3, 7), (4, 0)] =
      .error (.DataEmptyOn 4) ∧
    DataLookup.from_id_and_len_iter [(0, 2 ^ 64 - 1)] =
      .error .OffsetOverflows ∧
    DataLookup.from_id_and_len_iter [] = .ok ⟨[], []⟩ :=
  ⟨from_id_and_len_iter_error_cases.1 [(1, 10), (0, 2)] (by decide) (by decide)
      (by decide),
    from_id_and_len_iter_error_cases.2.1 [(3, 7)] 4 [] (by decide) (by decide)
      (by decide),
    from_id_and_len_iter_error_cases.2.2.1 [(0, 2 ^ 64 - 1)] (by decide)
      (by decide) (Or.inl ⟨(0, 2 ^ 64 - 1), by decide, by norm_num⟩),
    from_id_and_len_iter_error_cases.2.2.2⟩

/-- C5 counterexample: the claim as stated is false.  On `[(1, 0), (0, 2)]`
the second id (0) is smaller than the preceding one (1), so the claim
predicts `DataNotSorted`; but the loop checks each element's length before
its ordering, so the run fails earlier with `DataEmptyOn(1)`. -/
theorem from_id_and_len_iter_error_priority_cex :
    DataLookup.from_id_and_len_iter [(1, 0), (0, 2)] =
      .error (.DataEmptyOn 1) ∧
    Error.DataEmptyOn 1 ≠ Error.DataNotSorted :=
  ⟨rfl, by decide⟩

/-- C6: `CompactDataLookup::is_error` detects exactly the legacy
`size == u32::MAX` sentinel and the `size == 0`-with-non-empty-index
sentinel; encoding an error-state `DataLookup` produces the fixed sentinel
(`size = 0`, one `AppId(0)` entry); and decoding any error-sentinel
`CompactDataLookup` yields `DataLookup::new_error`, which satisfies
`DataLookup::is_error`. -/
theorem error_sentinel_roundtrip :
    (∀ c : CompactDataLookup,
      c.isError = true ↔ (c.size = 2 ^ 32 - 1 ∨ (c.size = 0 ∧ c.index ≠ []))) ∧
    (∀ d : DataLookup, d.isError = true →
      (CompactDataLookup.from_data_lookup d).size = 0 ∧
      (CompactDataLookup.from_data_lookup d).index = [(0, 0)]) ∧
    (∀ c : CompactDataLookup, c.isError = true →
      DataLookup.try_from c = .ok DataLookup.new_error) ∧
    DataLookup.new_error.isError = true := by
  refine ⟨?_, ?_, ?_, rfl⟩
  · intro c
    simp [CompactDataLookup.isError, List.isEmpty_iff]
  · intro d hd
    rw [CompactDataLookup.from_data_lookup, if_pos hd]
    exact ⟨rfl, rfl⟩
  · intro c hc
    rw [DataLookup.try_from, if_pos hc]

theorem error_sentinel_roundtrip_witness :
    ((⟨2 ^ 32 - 1, [], []⟩ : CompactDataLookup).isError = true ↔
      ((2 ^ 32 - 1 : Nat) = 2 ^ 32 - 1 ∨
        ((2 ^ 32 - 1 : Nat) = 0 ∧ ([] : List (Nat × Nat)) ≠ []))) ∧
    ((CompactDataLookup.from_data_lookup ⟨[(7, ⟨0, 0⟩)], []⟩).size = 0 ∧
      (CompactDataLookup.from_data_lookup ⟨[(7, ⟨0, 0⟩)], []⟩).index = [(0, 0)]) ∧
    DataLookup.try_from ⟨0, [(0, 0)], []⟩ = .ok DataLookup.new_error :=
  ⟨error_sentinel_roundtrip.1 ⟨2 ^ 32 - 1, [], []⟩,
    error_sentinel_roundtrip.2.1 ⟨[(7, ⟨0, 0⟩)], []⟩ (by decide),
    error_sentinel_roundtrip.2.2.1 ⟨0, [(0, 0)], []⟩ (by decide)⟩

end AvailCore

namespace KateRecovery

/-- `u32::to_le_bytes`: four little-endian bytes.  For an argument ≥ `2^32`
(the `as u32` cast site) the per-byte masks drop the high bits, matching the
Rust truncating cast. -/
def u32LeBytes (n : Nat) : List Nat :=
  [n % 256, n / 2 ^ 8 % 256, n / 2 ^ 16 % 256, n / 2 ^ 24 % 256]

/-- `u32::from_le_bytes` on a 4-byte slice.  Every call site guarantees the
slice has length 4; other shapes (never reached) give 0. -/
def u32FromLe : List Nat → Nat
  | [b0, b1, b2, b3] => b0 + 2 ^ 8 * b1 + 2 ^ 16 * b2 + 2 ^ 24 * b3
  | _ => 0

/-- `u64::to_be_bytes`: eight big-endian bytes. -/
def u64BeBytes (n : Nat) : List Nat :=
  [n / 2 ^ 56 % 256, n / 2 ^ 48 % 256, n / 2 ^ 40 % 256, n / 2 ^ 32 % 256,
    n / 2 ^ 24 % 256, n / 2 ^ 16 % 256, n / 2 ^ 8 % 256, n % 256]

/-- `u64::from_be_bytes` on an 8-byte slice (other shapes never reached). -/
def u64FromBe : List Nat → Nat
  | [b0, b1, b2, b3, b4, b5, b6, b7] =>
    2 ^ 56 * b0 + 2 ^ 48 * b1 + 2 ^ 40 * b2 + 2 ^ 32 * b3 +
      2 ^ 24 * b4 + 2 ^ 16 * b5 + 2 ^ 8 * b6 + b7
  | _ => 0

theorem u32_le_roundtrip (n : Nat) (h : n < 2 ^ 32) :
    u32FromLe (u32LeBytes n) = n := by
  simp only [u32LeBytes, u32FromLe]
  omega

theorem u64_be_roundtrip (n : Nat) (h : n < 2 ^ 64) :
    u64FromBe (u64BeBytes n) = n := by
  simp only [u64BeBytes, u64FromBe]
  omega

/-- The `&'static str` error messages of `src/kate/recovery/src/data.rs`,
one constructor per distinct message:
`gcellBlockSize` = "GCellBlock must be exactly 16 bytes",
`gcellBlockConvert` = "Failed to convert bytes to GCellBlock",
`inputTooShort` = "Input too short to be a valid MultiProofCell",
`invalidProofBytes` = "Invalid proof bytes",
`scalarCountRead` = "Failed to read scalar count",
`scalarLengthMismatch` = "Scalar data length mismatch",
`tooManyLimbs` = "Too many limbs in scalar",
`limbDecode` = "Failed to decode scalar limb". -/
inductive CodecError where
  | gcellBlockSize
  | gcellBlockConvert
  | inputTooShort
  | invalidProofBytes
  | scalarCountRead
  | scalarLengthMismatch
  | tooManyLimbs
  | limbDecode
deriving DecidableEq, Repr

/-- `GCellBlock` (data.rs lines 56-63): a rectangular sub-block descriptor,
four `u32` fields. -/
structure GCellBlock where
  start_x : Nat
  start_y : Nat
  end_x : Nat
  end_y : Nat
deriving DecidableEq, Repr

/-- `GCellBlock::to_bytes` (data.rs lines 68-75): the four fields as
little-endian `u32`s, 16 bytes. -/
def GCellBlock.to_bytes (g : GCellBlock) : List Nat :=
  u32LeBytes g.start_x ++ u32LeBytes g.start_y ++
    u32LeBytes g.end_x ++ u32LeBytes g.end_y

/-- `bytes.get(i..i+4).and_then(try_into).map(u32::from_le_bytes)`
(data.rs lines 82-97): `some` exactly when four bytes exist at offset `i`. -/
def sliceU32Le (bytes : List Nat) (i : Nat) : Option Nat :=
  let s := (bytes.drop i).take 4
  if s.length = 4 then some (u32FromLe s) else none

/-- `GCellBlock::from_bytes` (data.rs lines 77-108): exact length 16 is
required, then the four fields are read at offsets 0, 4, 8, 12. -/
def GCellBlock.from_bytes (bytes : List Nat) : Except CodecError GCellBlock :=
  if bytes.length ≠ 16 then .error .gcellBlockSize
  else
    match sliceU32Le bytes 0, sliceU32Le bytes 4,
        sliceU32Le bytes 8, sliceU32Le bytes 12 with
    | some a, some b, some c, some d => .ok ⟨a, b, c, d⟩
    | _, _, _, _ => .error .gcellBlockConvert

/-- `matrix::Position`: `row: u32`, `col: u16`. -/
structure Position where
  row : Nat
  col : Nat
deriving DecidableEq, Repr

/-- A `[u64; 4]` scalar-limb array. -/
structure Scalar4 where
  l0 : Nat
  l1 : Nat
  l2 : Nat
  l3 : Nat
deriving DecidableEq, Repr

/-- The 32-byte encoding of one scalar: four `u64` limbs, each big-endian,
concatenated per limb (data.rs `MultiProofCell::data`, lines 194-204). -/
def scalarBytes (s : Scalar4) : List Nat :=
  u64BeBytes s.l0 ++ u64BeBytes s.l1 ++ u64BeBytes s.l2 ++ u64BeBytes s.l3

/-- The concatenated scalar section of `MultiProofCell::data`. -/
def scalarsData : List Scalar4 → List Nat
  | [] => []
  | s :: t => scalarBytes s ++ scalarsData t

/-- `MultiProofCell` (data.rs lines 48-54). The `proof` field models
`[u8; 48]` (length 48 wherever it matters). -/
structure MultiProofCell where
  position : Position
  scalars : List Scalar4
  proof : List Nat
  gcell_block : GCellBlock
deriving DecidableEq, Repr

/-- `MultiProofCell::to_bytes` (data.rs lines 175-192):
`proof ∥ gcell_block ∥ (scalar_count as u32).to_le_bytes() ∥ data()`. -/
def MultiProofCell.to_bytes (m : MultiProofCell) : List Nat :=
  m.proof ++ m.gcell_block.to_bytes ++
    u32LeBytes (m.scalars.length % 2 ^ 32) ++ scalarsData m.scalars

/-- `MultiProofCell::data` (data.rs lines 194-204). -/
def MultiProofCell.data (m : MultiProofCell) : List Nat :=
  scalarsData m.scalars

/-- One 32-byte chunk parsed into a `[u64; 4]` (data.rs lines 152-165).
`chunks_exact(8)` of a 32-byte chunk yields exactly four 8-byte limbs, so the
`i >= LIMBS_PER_SCALAR` and `try_into` failure branches are unreachable. -/
def scalarOfChunk (c : List Nat) : Scalar4 :=
  ⟨u64FromBe (c.take 8), u64FromBe ((c.drop 8).take 8),
    u64FromBe ((c.drop 16).take 8), u64FromBe ((c.drop 24).take 8)⟩

/-- Fuel-indexed chunking loop; with fuel ≥ the list length it performs
exactly the `chunks_exact(32)` traversal (each step consumes 32 bytes). -/
def parseScalarsGo : Nat → List Nat → List Scalar4
  | 0, _ => []
  | fuel + 1, l =>
    if 32 ≤ l.length then
      scalarOfChunk (l.take 32) :: parseScalarsGo fuel (l.drop 32)
    else []

/-- `rest.chunks_exact(SCALAR_BYTE_LEN)` over the scalar section: full
32-byte chunks, any remainder dropped. -/
def parseScalars (l : List Nat) : List Scalar4 :=
  parseScalarsGo l.length l

/-- `MultiProofCell::from_bytes` (data.rs lines 124-173).
`min_required_len = 48 + 16 + 4 = 68`.  The Rust locals are inlined:
`proof_bytes = bytes[..48]`, `rest = bytes[48..]`,
`gcell_block_bytes = rest[..16]`, `rest2 = rest[16..]`,
`scalar_count_bytes = rest2[..4]`, `rest3 = rest2[4..]`; the `?` on
`GCellBlock::from_bytes` is `Except.bind`.  The `proof.try_into()` and the
scalar-count `get(..4)` cannot fail once the length check has passed and are
not separate error paths here (their messages are `invalidProofBytes` and
`scalarCountRead`). -/
def MultiProofCell.from_bytes (position : Position) (bytes : List Nat) :
    Except CodecError MultiProofCell :=
  if bytes.length < 68 then .error .inputTooShort
  else
    (GCellBlock.from_bytes ((bytes.drop 48).take 16)).bind (fun gcell =>
      if (((bytes.drop 48).drop 16).drop 4).length ≠
          u32FromLe (((bytes.drop 48).drop 16).take 4) * 32
      then .error .scalarLengthMismatch
      else .ok ⟨position, parseScalars (((bytes.drop 48).drop 16).drop 4),
        bytes.take 48, gcell⟩)

example :
    MultiProofCell.from_bytes ⟨10, 5⟩
        (MultiProofCell.to_bytes
          ⟨⟨10, 5⟩, [⟨1, 2, 3, 4⟩, ⟨5, 6, 7, 8⟩], List.replicate 48 1,
            ⟨0, 0, 10, 10⟩⟩) =
      .ok ⟨⟨10, 5⟩, [⟨1, 2, 3, 4⟩, ⟨5, 6, 7, 8⟩], List.replicate 48 1,
        ⟨0, 0, 10, 10⟩⟩ := by
  rfl

theorem take_append_exact {α : Type} (a b : List α) (n : Nat)
    (h : a.length = n) : (a ++ b).take n = a := by
  subst h
  induction a with
  | nil => simp
  | cons x t ih => simp [ih]

theorem drop_append_exact {α : Type} (a b : List α) (n : Nat)
    (h : a.length = n) : (a ++ b).drop n = b := by
  subst h
  induction a with
  | nil => simp
  | cons x t ih => simp

theorem exceptBind_ok {ε α β : Type} (a : α) (f : α → Except ε β) :
    (Except.ok a : Except ε α).bind f = f a := rfl

theorem gcb_to_bytes_length (g : GCellBlock) : g.to_bytes.length = 16 := rfl

theorem scalarBytes_length (s : Scalar4) : (scalarBytes s).length = 32 := rfl

theorem scalarsData_length (s : List Scalar4) :
    (scalarsData s).length = 32 * s.length := by
  induction s with
  | nil => rfl
  | cons x t ih =>
    show (scalarBytes x ++ scalarsData t).length = 32 * (t.length + 1)
    rw [List.length_append, scalarBytes_length, ih]
    ring

theorem scalarOfChunk_scalarBytes (x : Scalar4)
    (h : x.l0 < 2 ^ 64 ∧ x.l1 < 2 ^ 64 ∧ x.l2 < 2 ^ 64 ∧ x.l3 < 2 ^ 64) :
    scalarOfChunk (scalarBytes x) = x := by
  obtain ⟨a, b, c, d⟩ := x
  have e : scalarOfChunk (scalarBytes ⟨a, b, c, d⟩) =
      ⟨u64FromBe (u64BeBytes a), u64FromBe (u64BeBytes b),
        u64FromBe (u64BeBytes c), u64FromBe (u64BeBytes d)⟩ := rfl
  rw [e, u64_be_roundtrip a h.1, u64_be_roundtrip b h.2.1,
    u64_be_roundtrip c h.2.2.1, u64_be_roundtrip d h.2.2.2]

theorem parseScalarsGo_data (s : List Scalar4) :
    ∀ fuel : Nat, (scalarsData s).length ≤ fuel →
    (∀ x ∈ s, x.l0 < 2 ^ 64 ∧ x.l1 < 2 ^ 64 ∧ x.l2 < 2 ^ 64 ∧ x.l3 < 2 ^ 64) →
    parseScalarsGo fuel (scalarsData s) = s := by
  induction s with
  | nil =>
    intro fuel _ _
    cases fuel with
    | zero => rfl
    | succ k => simp [parseScalarsGo, scalarsData]
  | cons x t ih =>
    intro fuel hfuel hbounds
    have hlen : (scalarsData (x :: t)).length = 32 + (scalarsData t).length := by
      show (scalarBytes x ++ scalarsData t).length = _
      rw [List.length_append, scalarBytes_length]
    cases fuel with
    | zero => omega
    | succ k =>
      show parseScalarsGo (k + 1) (scalarBytes x ++ scalarsData t) = x :: t
      rw [parseScalarsGo, if_pos (by
        rw [List.length_append, scalarBytes_length]
        omega)]
      rw [take_append_exact _ _ 32 (scalarBytes_length x),
        drop_append_exact _ _ 32 (scalarBytes_length x),
        scalarOfChunk_scalarBytes x (hbounds x (by simp))]
      have hk : (scalarsData t).length ≤ k := by omega
      rw [ih k hk (fun y hy => hbounds y (List.mem_cons_of_mem _ hy))]

theorem parseScalars_data (s : List Scalar4)
    (hb : ∀ x ∈ s, x.l0 < 2 ^ 64 ∧ x.l1 < 2 ^ 64 ∧ x.l2 < 2 ^ 64 ∧
      x.l3 < 2 ^ 64) :
    parseScalars (scalarsData s) = s :=
  parseScalarsGo_data s _ (le_refl _) hb

/-- Any 16-byte input parses as a `GCellBlock` (the four `Option` reads all
succeed). -/
theorem gcb_from_bytes_of_len16 (bytes : List Nat) (h : bytes.length = 16) :
    GCellBlock.from_bytes bytes =
      .ok ⟨u32FromLe ((bytes.drop 0).take 4), u32FromLe ((bytes.drop 4).take 4),
        u32FromLe ((bytes.drop 8).take 4), u32FromLe ((bytes.drop 12).take 4)⟩ := by
  rw [GCellBlock.from_bytes, if_neg (by omega)]
  have hs : ∀ i : Nat, i + 4 ≤ 16 →
      sliceU32Le bytes i = some (u32FromLe ((bytes.drop i).take 4)) := by
    intro i hi
    rw [sliceU32Le]
    simp only [List.length_take, List.length_drop, h]
    rw [if_pos (by omega)]
  rw [hs 0 (by omega), hs 4 (by omega), hs 8 (by omega), hs 12 (by omega)]

theorem gcb_roundtrip (g : GCellBlock) (h1 : g.start_x < 2 ^ 32)
    (h2 : g.start_y < 2 ^ 32) (h3 : g.end_x < 2 ^ 32) (h4 : g.end_y < 2 ^ 32) :
    GCellBlock.from_bytes g.to_bytes = .ok g := by
  obtain ⟨a, b, c, d⟩ := g
  have e : GCellBlock.from_bytes (GCellBlock.to_bytes ⟨a, b, c, d⟩) =
      .ok ⟨u32FromLe (u32LeBytes a), u32FromLe (u32LeBytes b),
        u32FromLe (u32LeBytes c), u32FromLe (u32LeBytes d)⟩ := rfl
  rw [e, u32_le_roundtrip a h1, u32_le_roundtrip b h2, u32_le_roundtrip c h3,
    u32_le_roundtrip d h4]

theorem mpc_roundtrip (m : MultiProofCell) (hp : m.proof.length = 48)
    (hk : m.scalars.length < 2 ^ 32)
    (hg1 : m.gcell_block.start_x < 2 ^ 32) (hg2 : m.gcell_block.start_y < 2 ^ 32)
    (hg3 : m.gcell_block.end_x < 2 ^ 32) (hg4 : m.gcell_block.end_y < 2 ^ 32)
    (hs : ∀ x ∈ m.scalars, x.l0 < 2 ^ 64 ∧ x.l1 < 2 ^ 64 ∧ x.l2 < 2 ^ 64 ∧
      x.l3 < 2 ^ 64) :
    MultiProofCell.from_bytes m.position m.to_bytes = .ok m := by
  obtain ⟨pos, scalars, proof, gcb⟩ := m
  simp only at hp hk hs hg1 hg2 hg3 hg4
  have hmod : scalars.length % 2 ^ 32 = scalars.length := Nat.mod_eq_of_lt hk
  have hB : MultiProofCell.to_bytes ⟨pos, scalars, proof, gcb⟩ =
      proof ++ (gcb.to_bytes ++
        (u32LeBytes scalars.length ++ scalarsData scalars)) := by
    rw [MultiProofCell.to_bytes]
    simp only [hmod, List.append_assoc]
  rw [hB, MultiProofCell.from_bytes]
  have hlen4 : (u32LeBytes scalars.length).length = 4 := rfl
  have hBlen : (proof ++ (gcb.to_bytes ++
      (u32LeBytes scalars.length ++ scalarsData scalars))).length =
      68 + (scalarsData scalars).length := by
    simp only [List.length_append, gcb_to_bytes_length, hlen4, hp]
    omega
  rw [if_neg (by omega)]
  rw [drop_append_exact proof _ 48 hp,
    take_append_exact gcb.to_bytes _ 16 (gcb_to_bytes_length gcb),
    drop_append_exact gcb.to_bytes _ 16 (gcb_to_bytes_length gcb),
    take_append_exact (u32LeBytes scalars.length) _ 4 hlen4,
    drop_append_exact (u32LeBytes scalars.length) _ 4 hlen4,
    take_append_exact proof _ 48 hp,
    gcb_roundtrip gcb hg1 hg2 hg3 hg4, exceptBind_ok,
    u32_le_roundtrip scalars.length hk]
  rw [if_neg (by rw [scalarsData_length]; omega)]
  rw [parseScalars_data scalars hs]

theorem mpc_from_bytes_mismatch (pos : Position) (bytes : List Nat)
    (hlen : 68 ≤ bytes.length)
    (hmm : (((bytes.drop 48).drop 16).drop 4).length ≠
      u32FromLe (((bytes.drop 48).drop 16).take 4) * 32) :
    MultiProofCell.from_bytes pos bytes = .error .scalarLengthMismatch := by
  rw [MultiProofCell.from_bytes, if_neg (by omega)]
  have h16 : ((bytes.drop 48).take 16).length = 16 := by
    simp only [List.length_take, List.length_drop]
    omega
  rw [gcb_from_bytes_of_len16 _ h16, exceptBind_ok, if_pos hmm]

/-- C3 (amended): the wire layout and codec behaviour of `GCellBlock` and
`MultiProofCell`.  `to_bytes` lays out proof (48 bytes), the `GCellBlock` as
four little-endian `u32`s, the scalar count as a little-endian `u32` and one
32-byte big-endian 4-limb block per scalar; `from_bytes` inverts this exactly
— for scalar lists of fewer than `2^32` entries (the count is stored as a
`u32`) — and rejects, without out-of-bounds access, every length-mismatched
input: non-16-byte `GCellBlock` bytes, `MultiProofCell` inputs shorter than
68 bytes, and inputs whose trailing scalar section is not `count × 32`
bytes. -/
theorem cell_codec_roundtrip :
    (∀ g : GCellBlock, g.start_x < 2 ^ 32 → g.start_y < 2 ^ 32 →
      g.end_x < 2 ^ 32 → g.end_y < 2 ^ 32 →
      g.to_bytes =
        u32LeBytes g.start_x ++ u32LeBytes g.start_y ++
          u32LeBytes g.end_x ++ u32LeBytes g.end_y ∧
      g.to_bytes.length = 16 ∧
      GCellBlock.from_bytes g.to_bytes = .ok g) ∧
    (∀ bytes : List Nat, bytes.length ≠ 16 →
      GCellBlock.from_bytes bytes = .error .gcellBlockSize) ∧
    (∀ m : MultiProofCell,
      m.to_bytes = m.proof ++ m.gcell_block.to_bytes ++
        u32LeBytes (m.scalars.length % 2 ^ 32) ++ scalarsData m.scalars ∧
      m.data = scalarsData m.scalars) ∧
    (∀ m : MultiProofCell, m.proof.length = 48 → m.scalars.length < 2 ^ 32 →
      m.gcell_block.start_x < 2 ^ 32 → m.gcell_block.start_y < 2 ^ 32 →
      m.gcell_block.end_x < 2 ^ 32 → m.gcell_block.end_y < 2 ^ 32 →
      (∀ x ∈ m.scalars, x.l0 < 2 ^ 64 ∧ x.l1 < 2 ^ 64 ∧ x.l2 < 2 ^ 64 ∧
        x.l3 < 2 ^ 64) →
      MultiProofCell.from_bytes m.position m.to_bytes = .ok m) ∧
    (∀ (pos : Position) (bytes : List Nat), bytes.length < 68 →
      MultiProofCell.from_bytes pos bytes = .error .inputTooShort) ∧
    (∀ (pos : Position) (bytes : List Nat), 68 ≤ bytes.length →
      (((bytes.drop 48).drop 16).drop 4).length ≠
        u32FromLe (((bytes.drop 48).drop 16).take 4) * 32 →
      MultiProofCell.from_bytes pos bytes = .error .scalarLengthMismatch) := by
  refine ⟨?_, ?_, ?_, ?_, ?_, ?_⟩
  · intro g h1 h2 h3 h4
    exact ⟨rfl, rfl, gcb_roundtrip g h1 h2 h3 h4⟩
  · intro bytes h
    rw [GCellBlock.from_bytes, if_pos h]
  · intro m
    exact ⟨rfl, rfl⟩
  · exact fun m hp hk h1 h2 h3 h4 hs => mpc_roundtrip m hp hk h1 h2 h3 h4 hs
  · intro pos bytes h
    rw [MultiProofCell.from_bytes, if_pos h]
  · exact mpc_from_bytes_mismatch

theorem cell_codec_roundtrip_witness :
    GCellBlock.from_bytes (GCellBlock.to_bytes ⟨2, 3, 6, 9⟩) =
      .ok ⟨2, 3, 6, 9⟩ ∧
    GCellBlock.from_bytes [0, 1, 2] = .error .gcellBlockSize ∧
    MultiProofCell.from_bytes ⟨20, 7⟩
        (MultiProofCell.to_bytes
          ⟨⟨20, 7⟩, [⟨10, 11, 12, 13⟩], List.replicate 48 9, ⟨2, 3, 6, 9⟩⟩) =
      .ok ⟨⟨20, 7⟩, [⟨10, 11, 12, 13⟩], List.replicate 48 9, ⟨2, 3, 6, 9⟩⟩ ∧
    MultiProofCell.from_bytes ⟨0, 0⟩ [1, 2, 3] = .error .inputTooShort ∧
    MultiProofCell.from_bytes ⟨0, 0⟩ (List.replicate 69 0) =
      .error .scalarLengthMismatch :=
  ⟨(cell_codec_roundtrip.1 ⟨2, 3, 6, 9⟩ (by decide) (by decide) (by decide)
      (by decide)).2.2,
    cell_codec_roundtrip.2.1 [0, 1, 2] (by decide),
    cell_codec_roundtrip.2.2.2.1
      ⟨⟨20, 7⟩, [⟨10, 11, 12, 13⟩], List.replicate 48 9, ⟨2, 3, 6, 9⟩⟩
      (by decide) (by decide) (by decide) (by decide) (by decide) (by decide)
      (by decide),
    cell_codec_roundtrip.2.2.2.2.1 ⟨0, 0⟩ [1, 2, 3] (by decide),
    cell_codec_roundtrip.2.2.2.2.2 ⟨0, 0⟩ (List.replicate 69 0) (by decide)
      (by decide)⟩

/-- C3 counterexample: the claim quantifies over every list of scalars, but
for `2^32` scalars the `scalar_count as u32` cast in `to_bytes` wraps to 0
while all `2^32 · 32` scalar bytes are still appended, so `from_bytes`
rejects the encoding with a scalar-section length mismatch instead of
reproducing the original structure. -/
def mpcHuge : MultiProofCell :=
  ⟨⟨0, 0⟩, List.replicate (2 ^ 32) ⟨0, 0, 0, 0⟩, List.replicate 48 0,
    ⟨0, 0, 0, 0⟩⟩

theorem u32LeBytes_length (n : Nat) : (u32LeBytes n).length = 4 := rfl

theorem cell_codec_roundtrip_cex :
    MultiProofCell.from_bytes mpcHuge.position mpcHuge.to_bytes =
      .error .scalarLengthMismatch ∧
    (.error .scalarLengthMismatch : Except CodecError MultiProofCell) ≠
      .ok mpcHuge := by
  have hproof : mpcHuge.proof = List.replicate 48 0 := rfl
  have hscal : mpcHuge.scalars = List.replicate (2 ^ 32) ⟨0, 0, 0, 0⟩ := rfl
  have hplen : mpcHuge.proof.length = 48 := by
    rw [hproof, List.length_replicate]
  have hslen : mpcHuge.scalars.length = 2 ^ 32 := by
    rw [hscal, List.length_replicate]
  have hdlen : (scalarsData mpcHuge.scalars).length = 32 * 2 ^ 32 := by
    rw [scalarsData_length, hslen]
  have hcnt : u32LeBytes (mpcHuge.scalars.length % 2 ^ 32) = u32LeBytes 0 := by
    rw [hslen, Nat.mod_self]
  have hB : mpcHuge.to_bytes =
      mpcHuge.proof ++ (mpcHuge.gcell_block.to_bytes ++
        (u32LeBytes 0 ++ scalarsData mpcHuge.scalars)) := by
    rw [MultiProofCell.to_bytes, hcnt, List.append_assoc, List.append_assoc]
  have hBlen : mpcHuge.to_bytes.length = 68 + 32 * 2 ^ 32 := by
    rw [hB, List.length_append, List.length_append, List.length_append,
      gcb_to_bytes_length, u32LeBytes_length, hplen, hdlen]
    omega
  have hzero : u32FromLe (u32LeBytes 0) = 0 := rfl
  constructor
  · refine mpc_from_bytes_mismatch _ _ (by omega) ?_
    rw [hB,
      drop_append_exact _ _ 48 hplen,
      drop_append_exact _ _ 16 (gcb_to_bytes_length _),
      drop_append_exact (u32LeBytes 0) (scalarsData mpcHuge.scalars) 4
        (u32LeBytes_length 0),
      take_append_exact (u32LeBytes 0) (scalarsData mpcHuge.scalars) 4
        (u32LeBytes_length 0),
      hdlen, hzero]
    omega
  · intro h
    cases h

/-- The error enum of `src/kate/recovery/src/proof.rs` (lines 36-56). -/
inductive Error where
  | InvalidData
  | InvalidDomain
  | InvalidDegree
  | InvalidPositionInDomain
  | FailedToGenerateDomainPoints
  | FailedToConvertEvalsToArkScalar
  | FailedToParseProof
  | FailedToExtractCommitments
  | FailedToVerifyProof
deriving DecidableEq, Repr

/-- The external `poly_multiproof`/arkworks crypto primitives consumed by
`proof.rs`, abstracted as opaque deserialisers, the evaluation-domain
constructor (its `elements()` already collected to a list), and the batched
pairing check (`PolyMultiProofNoPrecomp::verify`, `none` when the external
call itself errors).  `SC`, `PR`, `CM` are the external scalar, proof and
commitment types. -/
structure PmpOracle (SC PR CM : Type) where
  newDomain : Nat → Option (List SC)
  scalarFromBytes : List Nat → Option SC
  proofFromBytes : List Nat → Option PR
  commitFromBytes : List Nat → Option CM
  pairingVerify : List CM → List SC → List (List SC) → PR → Option Bool

/-- `iter().map(f).collect::<Result<Vec<_>, _>>()`: `none` as soon as any
element fails. -/
def collectOpt {α β : Type} (f : α → Option β) : List α → Option (List β)
  | [] => some []
  | a :: t =>
    match f a with
    | none => none
    | some b =>
      match collectOpt f t with
      | none => none
      | some bs => some (b :: bs)

/-- Fuel-indexed `chunks_exact(n)` loop (full chunks only, remainder
dropped); fuel ≥ list length suffices when `n ≥ 1`. -/
def chunksExactGo {α : Type} : Nat → Nat → List α → List (List α)
  | 0, _, _ => []
  | fuel + 1, n, l =>
    if 1 ≤ n ∧ n ≤ l.length then l.take n :: chunksExactGo fuel n (l.drop n)
    else []

/-- `slice::chunks_exact(n)` for `n ≥ 1` (the `n = 0` panic is modelled at
the call site). -/
def chunksExact {α : Type} (n : Nat) (l : List α) : List (List α) :=
  chunksExactGo l.length n l

/-- `domain_points` (proof.rs lines 133-136). -/
def domain_points {SC PR CM : Type} (O : PmpOracle SC PR CM) (n : Nat) :
    Except Error (List SC) :=
  match O.newDomain n with
  | none => .error .InvalidDomain
  | some pts => .ok pts

/-- Release-mode wrapping `u32` subtraction (`end - start` in
`verify_multi_proof`); equals plain subtraction when `b ≤ a < 2^32`. -/
def u32WrapSub (a b : Nat) : Nat :=
  (a + 2 ^ 32 - b) % 2 ^ 32

/-- One `((evals, proof), cellblock)` entry of `verify_multi_proof`'s loop
body (proof.rs lines 148-179), with Rust panics modelled as `none`:

* `evals → ArkScalar` conversion failing is `FailedToConvertEvalsToArkScalar`;
* `evals_flat.chunks_exact((end_x - start_x) as usize)` panics when the
  (wrapping) width is 0;
* proof parsing failing is `FailedToParseProof`;
* row commitments are the 48-byte chunks of `commitments`, skipping
  `start_y` and taking `end_y - start_y` (wrapping); a failed commitment
  deserialisation is `FailedToExtractCommitments`;
* `&points[start_x as usize..end_x as usize]` panics unless
  `start_x ≤ end_x ≤ points.len()` (the slice uses the unwrapped indices);
* an error from the external batched verification is `FailedToVerifyProof`,
  otherwise its boolean is returned.

The body is split into the stages `tripleStepWidth` (the zero-width chunking
panic), `tripleStepProofParse`, `tripleStepCommits` and `tripleStepPairing`
(the slice-bounds panic and the batched check), entered from `tripleStep`
(the evals conversion); the composition is the loop body verbatim. -/
def tripleStepPairing {SC PR CM : Type} (O : PmpOracle SC PR CM)
    (points : List SC) (t : (List (List Nat) × List Nat) × GCellBlock)
    (evals_flat : List SC) (proofs : PR) (commits : List CM) :
    Option (Except Error Bool) :=
  if t.2.start_x ≤ t.2.end_x ∧ t.2.end_x ≤ points.length then
    match O.pairingVerify commits
        ((points.drop t.2.start_x).take (t.2.end_x - t.2.start_x))
        (chunksExact (u32WrapSub t.2.end_x t.2.start_x) evals_flat)
        proofs with
    | none => some (.error .FailedToVerifyProof)
    | some verified => some (.ok verified)
  else none

def tripleStepCommits {SC PR CM : Type} (O : PmpOracle SC PR CM)
    (points : List SC) (commitments : List Nat)
    (t : (List (List Nat) × List Nat) × GCellBlock) (evals_flat : List SC)
    (proofs : PR) : Option (Except Error Bool) :=
  match collectOpt O.commitFromBytes
      (((chunksExact 48 commitments).drop t.2.start_y).take
        (u32WrapSub t.2.end_y t.2.start_y)) with
  | none => some (.error .FailedToExtractCommitments)
  | some commits => tripleStepPairing O points t evals_flat proofs commits

def tripleStepProofParse {SC PR CM : Type} (O : PmpOracle SC PR CM)
    (points : List SC) (commitments : List Nat)
    (t : (List (List Nat) × List Nat) × GCellBlock) (evals_flat : List SC) :
    Option (Except Error Bool) :=
  match O.proofFromBytes t.1.2 with
  | none => some (.error .FailedToParseProof)
  | some proofs => tripleStepCommits O points commitments t evals_flat proofs

def tripleStepWidth {SC PR CM : Type} (O : PmpOracle SC PR CM)
    (points : List SC) (commitments : List Nat)
    (t : (List (List Nat) × List Nat) × GCellBlock) (evals_flat : List SC) :
    Option (Except Error Bool) :=
  if u32WrapSub t.2.end_x t.2.start_x = 0 then none
  else tripleStepProofParse O points commitments t evals_flat

def tripleStep {SC PR CM : Type} (O : PmpOracle SC PR CM) (points : List SC)
    (commitments : List Nat) (t : (List (List Nat) × List Nat) × GCellBlock) :
    Option (Except Error Bool) :=
  match collectOpt O.scalarFromBytes t.1.1 with
  | none => some (.error .FailedToConvertEvalsToArkScalar)
  | some evals_flat => tripleStepWidth O points commitments t evals_flat

/-- The `for` loop of `verify_multi_proof` (proof.rs lines 148-182):
`Ok(false)` aborts at the first failing entry, errors propagate, the
exhausted loop yields `Ok(true)`. -/
def verifyMPGo {SC PR CM : Type} (O : PmpOracle SC PR CM) (points : List SC)
    (commitments : List Nat) :
    List ((List (List Nat) × List Nat) × GCellBlock) →
      Option (Except Error Bool)
  | [] => some (.ok true)
  | t :: rest =>
    match tripleStep O points commitments t with
    | none => none
    | some (.error e) => some (.error e)
    | some (.ok true) => verifyMPGo O points commitments rest
    | some (.ok false) => some (.ok false)

/-- `verify_multi_proof` (proof.rs lines 139-183), over the crypto oracle:
`proofList` is the `proof` argument, `commitments` the raw commitment bytes,
`cols` the original column count.  `none` models a panic. -/
def verify_multi_proof {SC PR CM : Type} (O : PmpOracle SC PR CM)
    (proofList : List ((List (List Nat) × List Nat) × GCellBlock))
    (commitments : List Nat) (cols : Nat) : Option (Except Error Bool) :=
  match domain_points O cols with
  | .error e => some (.error e)
  | .ok points => verifyMPGo O points commitments proofList

/-- C7: `verify_multi_proof` violates the no-panic policy.  For any crypto
oracle, any commitments buffer and any column count with a valid evaluation
domain, an entry with an empty evaluation list and a `GCellBlock` whose
`end_x` equals its `start_x` reaches `evals_flat.chunks_exact(0)`, which
panics ("chunk size must be non-zero") instead of returning a `Result`. -/
theorem verify_multi_proof_panics {SC PR CM : Type} (O : PmpOracle SC PR CM)
    (commitments : List Nat) (cols : Nat) (pts : List SC) (prf : List Nat)
    (hdom : O.newDomain cols = some pts) :
    verify_multi_proof O [(([], prf), ⟨0, 0, 0, 0⟩)] commitments cols =
      none := by
  have h1 : domain_points O cols = .ok pts := by
    rw [domain_points, hdom]
  have hc : collectOpt O.scalarFromBytes
      (((([] : List (List Nat)), prf),
        (⟨0, 0, 0, 0⟩ : GCellBlock)) :
          (List (List Nat) × List Nat) × GCellBlock).1.1 = some [] := rfl
  have hsnd : (((([] : List (List Nat)), prf),
      (⟨0, 0, 0, 0⟩ : GCellBlock)) :
        (List (List Nat) × List Nat) × GCellBlock).2 = ⟨0, 0, 0, 0⟩ := rfl
  have hts : tripleStep O pts commitments (([], prf), ⟨0, 0, 0, 0⟩) =
      none := by
    rw [tripleStep, hc]
    show tripleStepWidth O pts commitments (([], prf), ⟨0, 0, 0, 0⟩)
      ([] : List SC) = none
    rw [tripleStepWidth, hsnd]
    rfl
  rw [verify_multi_proof, h1]
  show verifyMPGo O pts commitments [(([], prf), ⟨0, 0, 0, 0⟩)] = none
  rw [verifyMPGo, hts]

/-- A degenerate stand-in for the external crypto layer, enough to witness
the panic path (never consulted before the zero-width chunking). -/
def panicOracle : PmpOracle Unit Unit Unit :=
  ⟨fun _ => some [], fun _ => none, fun _ => none, fun _ => none,
    fun _ _ _ _ => none⟩

theorem verify_multi_proof_panics_witness :
    verify_multi_proof panicOracle [(([], List.replicate 48 0), ⟨0, 0, 0, 0⟩)]
        [] 1 = none :=
  verify_multi_proof_panics panicOracle [] 1 [] (List.replicate 48 0) rfl

/-- C10: with a valid domain for `cols`, `verify_multi_proof` returns
`Ok(true)` on the empty proof list for every commitments buffer; in general
it returns `Ok(true)` exactly when every supplied
`((evaluations, proof), GCellBlock)` entry passes its batched pairing check
(`tripleStep … = some (.ok true)`), and it returns `Ok(false)` at the first
entry whose check comes back negative, regardless of the entries after it. -/
theorem verify_multi_proof_characterization {SC PR CM : Type}
    (O : PmpOracle SC PR CM) (commitments : List Nat) (cols : Nat)
    (pts : List SC) (hdom : O.newDomain cols = some pts) :
    verify_multi_proof O [] commitments cols = some (.ok true) ∧
    (∀ l, verify_multi_proof O l commitments cols = some (.ok true) ↔
      ∀ t ∈ l, tripleStep O pts commitments t = some (.ok true)) ∧
    (∀ pre t post,
      (∀ t' ∈ pre, tripleStep O pts commitments t' = some (.ok true)) →
      tripleStep O pts commitments t = some (.ok false) →
      verify_multi_proof O (pre ++ t :: post) commitments cols =
        some (.ok false)) := by
  have h1 : domain_points O cols = .ok pts := by
    rw [domain_points, hdom]
  have hunfold : ∀ l, verify_multi_proof O l commitments cols =
      verifyMPGo O pts commitments l := by
    intro l
    rw [verify_multi_proof, h1]
  refine ⟨by rw [hunfold]; rfl, ?_, ?_⟩
  · intro l
    rw [hunfold]
    induction l with
    | nil =>
      constructor
      · intro _ t ht; cases ht
      · intro _; rfl
    | cons t rest ih =>
      cases hstep : tripleStep O pts commitments t with
      | none =>
        have hv : verifyMPGo O pts commitments (t :: rest) = none := by
          rw [verifyMPGo, hstep]
        rw [hv]
        constructor
        · intro h; cases h
        · intro h
          have ht := h t (List.mem_cons_self t rest)
          rw [hstep] at ht
          cases ht
      | some val =>
        cases val with
        | error e =>
          have hv : verifyMPGo O pts commitments (t :: rest) =
              some (.error e) := by
            rw [verifyMPGo, hstep]
          rw [hv]
          constructor
          · intro h; cases h
          · intro h
            have ht := h t (List.mem_cons_self t rest)
            rw [hstep] at ht
            cases ht
        | ok verified =>
          cases verified with
          | false =>
            have hv : verifyMPGo O pts commitments (t :: rest) =
                some (.ok false) := by
              rw [verifyMPGo, hstep]
            rw [hv]
            constructor
            · intro h; cases h
            · intro h
              have ht := h t (List.mem_cons_self t rest)
              rw [hstep] at ht
              cases ht
          | true =>
            have hv : verifyMPGo O pts commitments (t :: rest) =
                verifyMPGo O pts commitments rest := by
              rw [verifyMPGo, hstep]
            rw [hv, ih]
            constructor
            · intro h t' ht'
              rcases List.mem_cons.mp ht' with he | hm
              · rw [he]; exact hstep
              · exact h t' hm
            · intro h t' ht'
              exact h t' (List.mem_cons_of_mem _ ht')
  · intro pre t post
    rw [hunfold]
    induction pre with
    | nil =>
      intro _ hfail
      rw [List.nil_append, verifyMPGo, hfail]
    | cons p pre' ih =>
      intro hpre hfail
      have hp := hpre p (List.mem_cons_self p pre')
      rw [List.cons_append, verifyMPGo, hp]
      exact ih (fun t' ht' => hpre t' (List.mem_cons_of_mem _ ht')) hfail

/-- A degenerate stand-in for the external crypto layer used to witness the
empty-list case. -/
def emptyListOracle : PmpOracle Unit Unit Unit :=
  ⟨fun _ => some [], fun _ => none, fun _ => none, fun _ => none,
    fun _ _ _ _ => none⟩

theorem verify_multi_proof_characterization_witness :
    verify_multi_proof emptyListOracle [] [0, 1, 2] 5 = some (.ok true) :=
  (verify_multi_proof_characterization emptyListOracle [0, 1, 2] 5 [] rfl).1

end KateRecovery

namespace Kate

/-- Modelled from the spec: the `EvaluationGrid` of the missing
`kate/src/gridgen` core module (§3, §9) — a flat `rows × cols` matrix of
field elements with an explicit dimension descriptor; the field of
32-byte-representable scalars is modelled by `ℚ` (only its field structure
is used by the extension property). -/
structure Grid where
  rows : Nat
  cols : Nat
  cell : Nat → Nat → ℚ

/-- Modelled from the spec: the evaluation-domain size support of the
missing domain construction (§4.3 — "typically requires
power-of-two-friendly sizes"); the powers of two up to the curve's
two-adicity `2^32`. -/
def supportedSize (n : Nat) : Bool :=
  (List.range 33).any (fun k => n == 2 ^ k)

/-- Modelled from the spec: the extended column evaluation domain — the
point associated with extended row index `j`.  Original rows sit at the even
indices (§3: "original rows are a deterministic, recoverable subset (e.g.,
every other row)"). -/
def extDomainPoint (j : Nat) : ℚ :=
  (j : ℚ)

/-- Modelled from the spec: the original column evaluation domain; original
domain point `i` is extended domain point `2·i`. -/
def origDomainPoint (i : Nat) : ℚ :=
  extDomainPoint (2 * i)

/-- The evaluation at `x` of the `k`-th Lagrange basis polynomial for the
nodes `v` over `s` (the normalised product of the `(x - v m)/(v k - v m)`
factors). -/
def basisEval (s : Finset Nat) (v : Nat → ℚ) (k : Nat) (x : ℚ) : ℚ :=
  ∏ m ∈ s.erase k, (x - v m) / (v k - v m)

/-- The evaluation at `x` of the Lagrange interpolant through the nodes
`v` over `s` with values `r`. -/
def interpolateEval (s : Finset Nat) (v : Nat → ℚ) (r : Nat → ℚ) (x : ℚ) :
    ℚ :=
  ∑ k ∈ s, r k * basisEval s v k x

/-- Modelled from the spec: `extend_columns(2)` of the missing gridgen
module (§4.3 — "treat its values as evaluations of a polynomial over the
column's evaluation domain, and evaluate that polynomial additionally at
`factor`× as many domain points") — every column's interpolant is evaluated
on the doubled domain, failing with a domain-size error when the original or
extended row count is not supported. -/
def extend_columns (g : Grid) : Option Grid :=
  if supportedSize g.rows && supportedSize (2 * g.rows) then
    some
      { rows := 2 * g.rows, cols := g.cols,
        cell := fun i j =>
          interpolateEval (Finset.range g.rows) origDomainPoint
            (fun k => g.cell k j) (extDomainPoint i) }
  else none

/-- Modelled from the spec: the deterministic original-row subset of an
extended grid — every other row, starting at row 0 (§3). -/
def originalRowSubset (g : Grid) : Grid :=
  { rows := g.rows / 2, cols := g.cols, cell := fun i j => g.cell (2 * i) j }

theorem origDomainPoint_injOn (n : Nat) :
    Set.InjOn origDomainPoint (Finset.range n) := by
  intro a _ b _ hab
  simp only [origDomainPoint, extDomainPoint, Nat.cast_inj] at hab
  omega

theorem basisEval_self {s : Finset Nat} {v : Nat → ℚ} {k : Nat}
    (hinj : Set.InjOn v s) (hk : k ∈ s) : basisEval s v k (v k) = 1 := by
  refine Finset.prod_eq_one ?_
  intro m hm
  have hms : m ∈ s := Finset.mem_of_mem_erase hm
  have hmk : m ≠ k := Finset.ne_of_mem_erase hm
  have hne : v k - v m ≠ 0 := by
    refine sub_ne_zero.mpr ?_
    intro hvv
    exact hmk (hinj hms hk hvv.symm)
  exact div_self hne

theorem basisEval_of_ne {s : Finset Nat} {v : Nat → ℚ} {k i : Nat}
    (hi : i ∈ s) (hik : i ≠ k) : basisEval s v k (v i) = 0 := by
  refine Finset.prod_eq_zero (Finset.mem_erase.mpr ⟨hik, hi⟩) ?_
  rw [sub_self, zero_div]

/-- Evaluating the interpolant at a node returns that node's value. -/
theorem interpolateEval_at_node {s : Finset Nat} {v : Nat → ℚ}
    (r : Nat → ℚ) {i : Nat} (hinj : Set.InjOn v s) (hi : i ∈ s) :
    interpolateEval s v r (v i) = r i := by
  rw [interpolateEval]
  rw [Finset.sum_eq_single i]
  · rw [basisEval_self hinj hi, mul_one]
  · intro k hk hki
    rw [basisEval_of_ne hi (fun h => hki h.symm), mul_zero]
  · intro hne
    exact absurd hi hne

/-- C8 (spec-modelled): for every grid whose row count (and doubled row
count) is a supported domain size, `extend_columns(2)` succeeds, the
extended grid has twice the rows and the same columns, and the deterministic
original-row subset (the even-indexed rows) reproduces the pre-extension
grid element for element. -/
theorem extend_columns_preserves_original_rows (g : Grid)
    (h1 : supportedSize g.rows = true)
    (h2 : supportedSize (2 * g.rows) = true) :
    ∃ ext, extend_columns g = some ext ∧
      ext.rows = 2 * g.rows ∧ ext.cols = g.cols ∧
      (originalRowSubset ext).rows = g.rows ∧
      (originalRowSubset ext).cols = g.cols ∧
      ∀ i < g.rows, ∀ j, (originalRowSubset ext).cell i j = g.cell i j := by
  have hcond : (supportedSize g.rows && supportedSize (2 * g.rows)) = true := by
    rw [h1, h2]
    rfl
  refine ⟨⟨2 * g.rows, g.cols, fun i j =>
      interpolateEval (Finset.range g.rows) origDomainPoint
        (fun k => g.cell k j) (extDomainPoint i)⟩,
    ?_, rfl, rfl, ?_, rfl, ?_⟩
  · rw [extend_columns, if_pos hcond]
  · show 2 * g.rows / 2 = g.rows
    omega
  · intro i hi j
    show interpolateEval (Finset.range g.rows) origDomainPoint
      (fun k => g.cell k j) (extDomainPoint (2 * i)) = g.cell i j
    have hnode : extDomainPoint (2 * i) = origDomainPoint i := rfl
    rw [hnode]
    exact interpolateEval_at_node (fun k => g.cell k j)
      (origDomainPoint_injOn g.rows) (Finset.mem_range.mpr hi)

theorem extend_columns_preserves_original_rows_witness :
    ∃ ext, extend_columns ⟨2, 1, fun i _ => (i : ℚ)⟩ = some ext ∧
      ext.rows = 2 * 2 ∧ ext.cols = 1 ∧
      (originalRowSubset ext).rows = 2 ∧
      (originalRowSubset ext).cols = 1 ∧
      ∀ i < 2, ∀ j, (originalRowSubset ext).cell i j =
        Grid.cell ⟨2, 1, fun i _ => (i : ℚ)⟩ i j :=
  extend_columns_preserves_original_rows ⟨2, 1, fun i _ => (i : ℚ)⟩
    (by decide) (by decide)

/-- Modelled from the spec: the serial commitment path of the missing
commitment engine (§4.4, §5) — one commitment per row, in row order;
`commitRow` abstracts the per-row KZG commitment, a pure function of the row
index for a fixed grid and parameters. -/
def serialCommitments {α : Type} (commitRow : Nat → α) (rows : Nat) :
    List α :=
  (List.range rows).map commitRow

/-- Modelled from the spec: the row-indexed output buffer of the parallel
path (§9 — "results collected into a pre-sized output buffer indexed by
row"), after the workers have completed the row indices of `order` (an
arbitrary completion schedule). -/
def parBuffer {α : Type} (commitRow : Nat → α) (order : List Nat) :
    Nat → Option α :=
  order.foldl
    (fun buf i => fun k => if k = i then some (commitRow i) else buf k)
    (fun _ => none)

/-- Reading the buffer back in row order; `none` if some row was never
written. -/
def readBuffer {α : Type} (buf : Nat → Option α) : List Nat → Option (List α)
  | [] => some []
  | i :: t =>
    match buf i with
    | none => none
    | some a =>
      match readBuffer buf t with
      | none => none
      | some l => some (a :: l)

/-- Modelled from the spec: `par_build_commitments` of the missing `com`
module (§4.4, §5) — parallel workers fill the row-indexed buffer in an
arbitrary order, and the output is collected in row order. -/
def par_build_commitments {α : Type} (commitRow : Nat → α) (rows : Nat)
    (order : List Nat) : Option (List α) :=
  readBuffer (parBuffer commitRow order) (List.range rows)

theorem parBuffer_mem {α : Type} (commitRow : Nat → α) :
    ∀ (order : List Nat) (buf : Nat → Option α) (i : Nat),
    (i ∈ order ∨ buf i = some (commitRow i)) →
    (order.foldl
      (fun buf i => fun k => if k = i then some (commitRow i) else buf k)
      buf) i = some (commitRow i) := by
  intro order
  induction order with
  | nil =>
    intro buf i h
    rcases h with h | h
    · cases h
    · exact h
  | cons o t ih =>
    intro buf i h
    rw [List.foldl_cons]
    refine ih _ i ?_
    rcases h with h | h
    · rcases List.mem_cons.mp h with he | hm
      · right
        subst he
        simp
      · left
        exact hm
    · right
      by_cases hio : i = o
      · subst hio
        simp
      · simpa [hio] using h

theorem readBuffer_all {α : Type} (buf : Nat → Option α) (f : Nat → α) :
    ∀ l : List Nat, (∀ i ∈ l, buf i = some (f i)) →
    readBuffer buf l = some (l.map f) := by
  intro l
  induction l with
  | nil => intro _; rfl
  | cons i t ih =>
    intro h
    rw [readBuffer, h i (List.mem_cons_self i t),
      ih (fun j hj => h j (List.mem_cons_of_mem _ hj))]
    rfl

/-- C9 (spec-modelled): for every per-row commitment function, every row
count and every completion order of the parallel workers that covers each
row index exactly once, the parallel path produces exactly the serial
row-ordered commitment sequence — bit-for-bit, since both paths apply the
same pure per-row function. -/
theorem par_build_commitments_eq_serial {α : Type} (commitRow : Nat → α)
    (rows : Nat) (order : List Nat)
    (hperm : order.Perm (List.range rows)) :
    par_build_commitments commitRow rows order =
      some (serialCommitments commitRow rows) := by
  rw [par_build_commitments, serialCommitments]
  refine readBuffer_all _ _ _ ?_
  intro i hi
  exact parBuffer_mem commitRow order (fun _ => none) i
    (Or.inl ((hperm.mem_iff).mpr hi))

theorem par_build_commitments_eq_serial_witness :
    par_build_commitments (fun i => i * i) 3 [2, 0, 1] =
      some (serialCommitments (fun i => i * i) 3) :=
  par_build_commitments_eq_serial (fun i => i * i) 3 [2, 0, 1] (by decide)

end Kate
